import Mathlib

/-!
# Verification of the stringifier-cpp serialization core

Shallow embedding of the serializer: the type-category dispatcher
(converter), the attribute container (field-descriptor chain), the
serialize/deserialize traversal engine of `serializer/serialize.hpp`,
and the struct fast path (`serializeStruct` / `deserializeStruct`).

Buffers are modelled as `List Nat` (one `Nat` per byte/token), cursor
positions as `Nat`.  The converter (`convertor.hpp` is not part of the
provided sources) is modelled from the spec, section 4.2; the chain and
traversal-engine definitions are translated from
`src/unnamed/part_001` and `src/serializer/serialize.hpp`.
-/

namespace Stringifier

/-! ## Field-type categories (spec section 4.2) -/

/-- Static type categories of supported field types: primitive (raw
aggregate scalar), string, fixed-size container of `n` elements,
variable-size container, owned pointer, nested serializable object. -/
inductive Ty where
  | prim : Ty
  | str : Ty
  | arr : Nat → Ty → Ty
  | vect : Ty → Ty
  | ptrTo : Ty → Ty
  | nested : List Ty → Ty
deriving Repr

/-- Values of the supported field types.  An owned-pointer field is
either null (`ptrNull`) or holds a pointee value (`ptrVal`). -/
inductive Val where
  | prim : Nat → Val
  | str : List Nat → Val
  | arr : List Val → Val
  | vect : List Val → Val
  | ptrNull : Val
  | ptrVal : Val → Val
  | nested : List Val → Val
deriving Repr

mutual

/-- `hasTy v t` holds when value `v` belongs to the static type
category `t` (the compile-time type match of the C++ templates). -/
def hasTy : Val → Ty → Bool
  | .prim _, .prim => true
  | .str _, .str => true
  | .arr vs, .arr n t => vs.length == n && hasTyAll vs t
  | .vect vs, .vect t => hasTyAll vs t
  | .ptrNull, .ptrTo _ => true
  | .ptrVal v, .ptrTo t => hasTy v t
  | .nested vs, .nested ts => hasTyZip vs ts
  | _, _ => false

/-- All elements of a homogeneous container have element type `t`. -/
def hasTyAll : List Val → Ty → Bool
  | [], _ => true
  | v :: vs, t => hasTy v t && hasTyAll vs t

/-- The fields of a nested object match its type sequence in order. -/
def hasTyZip : List Val → List Ty → Bool
  | [], [] => true
  | v :: vs, t :: ts => hasTy v t && hasTyZip vs ts
  | _, _ => false

end

mutual

/-- Modelled from the spec: the converter encode of section 4.2
(`convertor.hpp` is not among the provided sources).  Primitives copy
their representation (one token); strings and variable-size containers
are length-prefixed; fixed-size containers carry no length; owned
pointers write a presence flag then the pointee; nested objects inline
their fields' encodings. -/
def encode : Val → List Nat
  | .prim n => [n]
  | .str s => s.length :: s
  | .arr vs => encodeList vs
  | .vect vs => vs.length :: encodeList vs
  | .ptrNull => [0]
  | .ptrVal v => 1 :: encode v
  | .nested vs => encodeList vs

/-- Concatenation of the element encodings, in order. -/
def encodeList : List Val → List Nat
  | [] => []
  | v :: vs => encode v ++ encodeList vs

end

mutual

/-- Modelled from the spec: the converter decode of section 4.2
(`convertor.hpp` is not among the provided sources).  Decoding is
driven purely by the static type; `none` is the OutOfRange failure
raised when a read runs past the end of the source. -/
def decode : Ty → List Nat → Option (Val × List Nat)
  | .prim, [] => none
  | .prim, n :: rest => some (.prim n, rest)
  | .str, [] => none
  | .str, len :: rest =>
      if len ≤ rest.length then some (.str (rest.take len), rest.drop len)
      else none
  | .arr n t, bytes => (decodeCount n t bytes).map (fun p => (.arr p.1, p.2))
  | .vect _, [] => none
  | .vect t, len :: rest =>
      (decodeCount len t rest).map (fun p => (.vect p.1, p.2))
  | .ptrTo _, [] => none
  | .ptrTo _, 0 :: rest => some (.ptrNull, rest)
  | .ptrTo t, _ :: rest => (decode t rest).map (fun p => (.ptrVal p.1, p.2))
  | .nested ts, bytes => (decodeSeq ts bytes).map (fun p => (.nested p.1, p.2))

/-- Decode exactly `n` elements of type `t`, in order. -/
def decodeCount : Nat → Ty → List Nat → Option (List Val × List Nat)
  | 0, _, bytes => some ([], bytes)
  | n + 1, t, bytes =>
      match decode t bytes with
      | none => none
      | some (v, rest) =>
          match decodeCount n t rest with
          | none => none
          | some (vs, rest2) => some (v :: vs, rest2)

/-- Decode one value per type of the sequence, in order. -/
def decodeSeq : List Ty → List Nat → Option (List Val × List Nat)
  | [], bytes => some ([], bytes)
  | t :: ts, bytes =>
      match decode t bytes with
      | none => none
      | some (v, rest) =>
          match decodeSeq ts rest with
          | none => none
          | some (vs, rest2) => some (v :: vs, rest2)

end

/-! ## Round-trip of the converter -/

mutual

/-- Decoding the encoding of a well-typed value, followed by any
suffix, restores the value and leaves the suffix. -/
theorem decode_encode : ∀ (v : Val) (t : Ty), hasTy v t = true →
    ∀ rest, decode t (encode v ++ rest) = some (v, rest)
  | .prim n, .prim, _, rest => by simp [encode, decode]
  | .str s, .str, _, rest => by
      simp [encode, decode, List.take_left, List.drop_left]
  | .arr vs, .arr n t, h, rest => by
      simp only [hasTy, Bool.and_eq_true, beq_iff_eq] at h
      obtain ⟨h1, h2⟩ := h
      subst h1
      simp [encode, decode, decodeCount_encodeList vs t h2 rest]
  | .vect vs, .vect t, h, rest => by
      simp only [hasTy] at h
      simp [encode, decode, decodeCount_encodeList vs t h rest]
  | .ptrNull, .ptrTo t, _, rest => by simp [encode, decode]
  | .ptrVal v, .ptrTo t, h, rest => by
      simp only [hasTy] at h
      simp [encode, decode, decode_encode v t h rest]
  | .nested vs, .nested ts, h, rest => by
      simp only [hasTy] at h
      simp [encode, decode, decodeSeq_encodeList vs ts h rest]

/-- Decoding `vs.length` elements from the concatenated encodings of a
well-typed element list restores the list. -/
theorem decodeCount_encodeList : ∀ (vs : List Val) (t : Ty),
    hasTyAll vs t = true → ∀ rest,
    decodeCount vs.length t (encodeList vs ++ rest) = some (vs, rest)
  | [], _, _, rest => by simp [encodeList, decodeCount]
  | v :: vs, t, h, rest => by
      simp only [hasTyAll, Bool.and_eq_true] at h
      simp [encodeList, decodeCount, List.append_assoc,
            decode_encode v t h.1 (encodeList vs ++ rest),
            decodeCount_encodeList vs t h.2 rest]

/-- Decoding along a type sequence from the concatenated encodings of a
matching field list restores the fields in declaration order. -/
theorem decodeSeq_encodeList : ∀ (vs : List Val) (ts : List Ty),
    hasTyZip vs ts = true → ∀ rest,
    decodeSeq ts (encodeList vs ++ rest) = some (vs, rest)
  | [], [], _, rest => by simp [encodeList, decodeSeq]
  | [], _ :: _, h, _ => by simp [hasTyZip] at h
  | _ :: _, [], h, _ => by simp [hasTyZip] at h
  | v :: vs, t :: ts, h, rest => by
      simp only [hasTyZip, Bool.and_eq_true] at h
      simp [encodeList, decodeSeq, List.append_assoc,
            decode_encode v t h.1 (encodeList vs ++ rest),
            decodeSeq_encodeList vs ts h.2 rest]

end

/-! ## The field-descriptor chain (`AttrContainer`, `src/unnamed/part_001`)

A chain node holds a reference to one field and recurses into `next`.
For the encode/decode behaviour the chain is determined by the ordered
list of field values (encode side) or field types plus current field
contents (decode side), so we embed the chain as those lists. -/

/-- `AttrContainer::serialize` (`src/unnamed/part_001`, lines 56-62):
each node appends its field's encoding to the running string by side
effect (`convertor.serialize(reference, str)`), then recurses into
`next`; the empty chain returns the string unchanged (lines 20-38). -/
def attrSerialize : List Val → List Nat → List Nat
  | [], s => s
  | v :: vs, s => attrSerialize vs (s ++ encode v)

/-- `AttrContainer::deserialize` for non-pointer fields
(`src/unnamed/part_001`, lines 71-80): each node overwrites its field
with the converter's decode from the consumed view, then recurses into
`next`; a thrown OutOfRange aborts the traversal, leaving the current
and all later fields untouched.  Result: (field contents after the
call, whether OutOfRange was thrown, remaining view). -/
def attrDeserialize : List Ty → List Val → List Nat → List Val × Bool × List Nat
  | [], fields, s => (fields, false, s)
  | _ :: _, [], s => ([], true, s)
  | t :: ts, f :: fs, s =>
      match decode t s with
      | none => (f :: fs, true, s)
      | some (v, rest) =>
          let r := attrDeserialize ts fs rest
          (v :: r.1, r.2.1, r.2.2)

/-- The chain serialize is exactly the concatenated field encodings
appended to the accumulator. -/
theorem attrSerialize_eq (vs : List Val) (s : List Nat) :
    attrSerialize vs s = s ++ encodeList vs := by
  induction vs generalizing s with
  | nil => simp [attrSerialize, encodeList]
  | cons v vs ih => simp [attrSerialize, encodeList, ih]

/-- Decoding a chain from the concatenation of matching encodings
restores every field, throws nothing, and leaves the suffix. -/
theorem attrDeserialize_encodeList (vs : List Val) (ts : List Ty)
    (fs : List Val) (h : hasTyZip vs ts = true) (hl : fs.length = vs.length)
    (rest : List Nat) :
    attrDeserialize ts fs (encodeList vs ++ rest) = (vs, false, rest) := by
  induction vs generalizing ts fs rest with
  | nil =>
      cases ts with
      | nil =>
          cases fs with
          | nil => simp [encodeList, attrDeserialize]
          | cons f fs => simp at hl
      | cons t ts => simp [hasTyZip] at h
  | cons v vs ih =>
      cases ts with
      | nil => simp [hasTyZip] at h
      | cons t ts =>
          cases fs with
          | nil => simp at hl
          | cons f fs =>
              simp only [hasTyZip, Bool.and_eq_true] at h
              simp only [List.length_cons, Nat.succ_inj] at hl
              simp [encodeList, attrDeserialize, List.append_assoc,
                    decode_encode v t h.1 (encodeList vs ++ rest),
                    ih ts fs h.2 hl rest]

/-! ## Owned-pointer fields: heap model

For the pointer branch of `AttrContainer::deserialize`
(`src/unnamed/part_001`, lines 71-80) we make allocation explicit: a
heap is a fresh-address counter, the set of live allocations, and the
stored pointee values.  `delete` of a dead address is undefined
behaviour in C++, so the embedding makes it a failure (`none`): a run
that returns `some` performed no double free. -/

/-- Explicit heap: `nxt` is the next fresh address, `live` the
currently allocated addresses, `store` the pointee values. -/
structure Heap where
  nxt : Nat
  live : List Nat
  store : Nat → Val

/-- A heap is well formed when every live address was previously
handed out by the allocator. -/
def Heap.wf (h : Heap) : Prop := ∀ a ∈ h.live, a < h.nxt

/-- `delete` an owned allocation: fails (C++ undefined behaviour) if
the address is not live — a successful run never double-frees. -/
def heapDelete (h : Heap) (a : Nat) : Option Heap :=
  if a ∈ h.live then some { h with live := h.live.erase a } else none

/-- `new`: allocate a fresh address holding `v`. -/
def heapAlloc (h : Heap) (v : Val) : Heap × Nat :=
  ({ nxt := h.nxt + 1, live := h.nxt :: h.live,
     store := fun b => if b = h.nxt then v else h.store b }, h.nxt)

/-- State of one pointer-typed field after its node's decode:
`reference` is the field (null or an address), plus the heap, the
remaining view, and whether OutOfRange was thrown. -/
structure PtrState where
  reference : Option Nat
  heap : Heap
  rest : List Nat
  thrown : Bool

/-- Modelled from the spec, section 4.2 owned-pointer decode
(`convertor.hpp` is not among the provided sources): read the presence
flag; if absent, destroy any existing owned value and leave the field
null; if present, destroy any existing owned value, allocate a new
pointee, decode into it and take ownership.  A failing read throws
OutOfRange; the assignment to the field then never happens, so the
field keeps the (null) value it had when the converter was entered. -/
def convPtrDeserialize (reference : Option Nat) (h : Heap) (t : Ty)
    (s : List Nat) : Option PtrState :=
  match s with
  | [] => some ⟨reference, h, s, true⟩
  | 0 :: rest =>
      match reference with
      | some a => (heapDelete h a).map (fun h2 => ⟨none, h2, rest, false⟩)
      | none => some ⟨none, h, rest, false⟩
  | _ :: rest =>
      match reference with
      | some a =>
          (heapDelete h a).bind (fun h2 =>
            match decode t rest with
            | none => some ⟨none, h2, rest, true⟩
            | some (v, r) =>
                let al := heapAlloc h2 v
                some ⟨some al.2, al.1, r, false⟩)
      | none =>
          match decode t rest with
          | none => some ⟨none, h, rest, true⟩
          | some (v, r) =>
              let al := heapAlloc h v
              some ⟨some al.2, al.1, r, false⟩

/-- The pointer branch of `AttrContainer::deserialize`
(`src/unnamed/part_001`, lines 71-80): if the reference is non-null it
is deleted and set to null, then
`reference = convertor.deserialize(str, reference)` runs with the
field already null. -/
def nodeDeserializePtr (reference : Option Nat) (h : Heap) (t : Ty)
    (s : List Nat) : Option PtrState :=
  match reference with
  | some a => (heapDelete h a).bind (fun h2 => convPtrDeserialize none h2 t s)
  | none => convPtrDeserialize none h t s

/-! ## Buffer primitives and the traversal engine
(`src/serializer/serialize.hpp`) -/

/-- Modelled from the spec, section 4.1 (`serializer.hpp` and
`tools/bytes.hpp` are not among the provided sources): write `bs` at
position `pos`, overwriting in place and growing the storage (zero
filled) when the write runs past the end. -/
def writeBytes (mem : List Nat) (pos : Nat) (bs : List Nat) : List Nat :=
  mem.take pos ++ List.replicate (pos - mem.length) 0 ++ bs
    ++ mem.drop (pos + bs.length)

/-- `resize` of the underlying storage (`std::vector`-style): truncate
to `n` elements, zero filling when growing. -/
def bufResize (mem : List Nat) (n : Nat) : List Nat :=
  mem.take n ++ List.replicate (n - mem.length) 0

/-- Phase tags (`tools/context.hpp`, used at
`src/serializer/serialize.hpp` lines 30 and 59). -/
inductive Phases where
  | Serialization
  | Deserialization
deriving Repr, DecidableEq

/-- The context handed to a phase-aware callable: the current phase
tag and the bound strategy instance. -/
structure Context (σ : Type) where
  phase : Phases
  serializer : σ

/-- Serializer strategy state: the buffer and the cursor. -/
structure SerSt where
  mem : List Nat
  pos : Nat
deriving Repr

/-- Modelled from the spec: the strategy's default per-argument encode
(`serializer.hpp` is not among the provided sources) writes the
argument's encoding at the cursor and advances it. -/
def serDefault (s : SerSt) (v : Val) : SerSt :=
  ⟨writeBytes s.mem s.pos (encode v), s.pos + (encode v).length⟩

/-- One argument of a `serialize` call: a plain value, or a
phase-aware callable (`SerializerFunction`). -/
inductive Arg where
  | plain (v : Val)
  | callable (f : Context SerSt → SerSt)

/-- Per-argument dispatch of `serialize`
(`src/serializer/serialize.hpp`, lines 27-36): a phase-aware callable
is invoked with a context carrying the `Serialization` phase tag and
the bound strategy; otherwise the strategy's default encode runs. -/
def serStep (s : SerSt) (a : Arg) : SerSt :=
  match a with
  | .callable f => f ⟨Phases.Serialization, s⟩
  | .plain v => serDefault s v

/-- The left-to-right fold over the argument pack of `serialize`. -/
def serFold : List Arg → SerSt → SerSt
  | [], s => s
  | a :: as, s => serFold as (serStep s a)

/-- `serializer::serialize` (`src/serializer/serialize.hpp`, lines
21-44): record whether the call is first level (`pos == 0`), fold the
arguments, then — only when the buffer is not the serializer's own
`Bytes` type, its storage is resizable, and the call is first level —
resize the buffer to the final cursor; return the final cursor.  The
compile-time facts `is_serializer_bytes_v` and `Resizeable` are the
two `Bool` parameters. -/
def serialize (isBytes resizable : Bool) (mem : List Nat) (pos : Nat)
    (args : List Arg) : List Nat × Nat :=
  let first_level := pos == 0
  let s := serFold args ⟨mem, pos⟩
  if !isBytes && resizable && first_level then (bufResize s.mem s.pos, s.pos)
  else (s.mem, s.pos)

/-- Deserializer strategy state: cursor, the values decoded so far (in
order), and whether OutOfRange was thrown.  The source buffer is
threaded separately and read only — the decode side never mutates it
(modelled from the spec: `serializer.hpp` is not among the provided
sources, and the spec states decode never shrinks the source). -/
structure Des where
  pos : Nat
  outs : List Val
  thrown : Bool
deriving Repr

/-- Modelled from the spec: the strategy's default per-argument decode
reads a value of the argument's type at the cursor, advances it and
stores the value; a failing read throws OutOfRange. -/
def desDefault (mem : List Nat) (s : Des) (t : Ty) : Des :=
  match decode t (mem.drop s.pos) with
  | some (v, rest) =>
      ⟨s.pos + ((mem.drop s.pos).length - rest.length), s.outs ++ [v], false⟩
  | none => ⟨s.pos, s.outs, true⟩

/-- One argument of a `deserialize` call: a plain field (its type), or
a phase-aware callable. -/
inductive DArg where
  | plain (t : Ty)
  | callable (f : Context Des → Des)

/-- Per-argument dispatch of `deserialize`
(`src/serializer/serialize.hpp`, lines 56-65): once OutOfRange has
been thrown the fold is abandoned (exception propagation); otherwise a
phase-aware callable is invoked with a context carrying the
`Deserialization` phase tag, and plain arguments use the strategy's
default decode. -/
def desStep (mem : List Nat) (s : Des) (a : DArg) : Des :=
  if s.thrown then s
  else
    match a with
    | .callable f => f ⟨Phases.Deserialization, s⟩
    | .plain t => desDefault mem s t

/-- The left-to-right fold over the argument pack of `deserialize`. -/
def desFold (mem : List Nat) : List DArg → Des → Des
  | [], s => s
  | a :: as, s => desFold mem as (desStep mem s a)

/-- `serializer::deserialize` (`src/serializer/serialize.hpp`, lines
53-67): fold the arguments from the starting position and return the
buffer (passed by reference, never resized by this function) together
with the final strategy state. -/
def deserializeTrav (mem : List Nat) (pos : Nat) (args : List DArg) :
    List Nat × Des :=
  (mem, desFold mem args ⟨pos, [], false⟩)

/-! ## Struct fast path (`src/serializer/serialize.hpp`, lines 75-96) -/

/-- Raw, unchecked read of `n` bytes starting at `pos`
(`mem.data() + pos` followed by a `sizeof`-byte copy): whatever lies
past the end of the buffer is unspecified in C++ (undefined
behaviour); the model reads zeros there. -/
def readRaw (mem : List Nat) (pos n : Nat) : List Nat :=
  (mem.drop pos).take n ++ List.replicate (n - (mem.drop pos).length) 0

/-- `serializer::deserializeStruct` (`src/serializer/serialize.hpp`,
lines 92-96), abstracted over the object size: copy `size` bytes from
the buffer at `pos` into the destination object and return
`pos + size`.  There is no bounds check and no failure path. -/
def deserializeStruct (mem : List Nat) (pos size : Nat) :
    List Nat × Nat :=
  (readRaw mem pos size, pos + size)

/-- A bounds-checked read, following the claim's words (the behaviour
`deserializeStruct` would need in order to raise OutOfRange on a read
underrun): `none` when fewer than `n` bytes remain. -/
def readChecked (mem : List Nat) (pos n : Nat) : Option (List Nat) :=
  if pos + n ≤ mem.length then some ((mem.drop pos).take n) else none

/-- Little-endian byte representation of a 32-bit word. -/
def toLE32 (n : Nat) : List Nat :=
  [n % 256, n / 256 % 256, n / 65536 % 256, n / 16777216 % 256]

/-- Word value of four little-endian bytes. -/
def fromLE32 (bs : List Nat) : Nat :=
  match bs with
  | b0 :: b1 :: b2 :: b3 :: _ => b0 + 256 * b1 + 65536 * b2 + 16777216 * b3
  | _ => 0

/-- Two's-complement 32-bit representation of an `int32` value. -/
def int32ToNat (i : Int) : Nat := (i % 4294967296).toNat

/-- `int32` value of a 32-bit two's-complement word. -/
def int32OfNat (n : Nat) : Int :=
  if n < 2147483648 then (n : Int) else (n : Int) - 4294967296

/-- The flat, trivially copyable aggregate of the spec's fast-path
example: `{x: int32, y: int32}`. -/
structure Flat where
  x : Int
  y : Int
deriving Repr, DecidableEq

/-- In-memory representation of a `Flat` object: the two `int32`
members, each as four little-endian two's-complement bytes. -/
def reprFlat (o : Flat) : List Nat :=
  toLE32 (int32ToNat o.x) ++ toLE32 (int32ToNat o.y)

/-- `serializer::serializeStruct` (`src/serializer/serialize.hpp`,
lines 75-84) at type `Flat`: append the object's `sizeof` bytes (its
in-memory representation, obtained by `bit_cast`) at `pos` via the
serializer and return the advanced cursor.  The `Serializer::append`
write primitive is modelled from the spec (`serializer.hpp` is not
among the provided sources). -/
def serializeStructFlat (mem : List Nat) (pos : Nat) (o : Flat) :
    List Nat × Nat :=
  (writeBytes mem pos (reprFlat o), pos + 8)

/-- `serializer::deserializeStruct` at type `Flat`: `bit_cast` the
`sizeof(Flat)` bytes at `pos` back into an object. -/
def deserializeStructFlat (mem : List Nat) (pos : Nat) : Flat × Nat :=
  let r := deserializeStruct mem pos 8
  (⟨int32OfNat (fromLE32 r.1), int32OfNat (fromLE32 (r.1.drop 4))⟩, r.2)

/-! ## Buffer lemmas -/

/-- The part of `writeBytes` that precedes the written bytes has
length exactly `pos`. -/
theorem writeBytes_split (mem : List Nat) (pos : Nat) (bs : List Nat) :
    writeBytes mem pos bs
      = (mem.take pos ++ List.replicate (pos - mem.length) 0)
        ++ (bs ++ mem.drop (pos + bs.length))
      ∧ (mem.take pos ++ List.replicate (pos - mem.length) (0 : Nat)).length
        = pos := by
  constructor
  · simp [writeBytes]
  · simp only [List.length_append, List.length_take, List.length_replicate]
    omega

/-- Raw read of a middle segment whose start position is the length
of the prefix. -/
theorem readRaw_append (A bs D : List Nat) (pos : Nat)
    (hA : A.length = pos) : readRaw (A ++ (bs ++ D)) pos bs.length = bs := by
  subst hA
  rw [readRaw, List.drop_left, List.take_left]
  have h0 : bs.length - ((bs ++ D) : List Nat).length = 0 := by
    simp only [List.length_append]
    omega
  rw [h0]
  simp

/-- Reading back `bs.length` raw bytes at `pos` after writing `bs` at
`pos` returns `bs`. -/
theorem readRaw_writeBytes (mem : List Nat) (pos : Nat) (bs : List Nat) :
    readRaw (writeBytes mem pos bs) pos bs.length = bs := by
  obtain ⟨hw, hA⟩ := writeBytes_split mem pos bs
  rw [hw]
  exact readRaw_append _ _ _ _ hA

/-- Writing at the end of the buffer appends. -/
theorem writeBytes_at_end (mem : List Nat) (bs : List Nat) :
    writeBytes mem mem.length bs = mem ++ bs := by
  simp [writeBytes]

/-- `resize` yields a buffer of exactly the requested length. -/
theorem bufResize_length (mem : List Nat) (n : Nat) :
    (bufResize mem n).length = n := by
  simp only [bufResize, List.length_append, List.length_take,
             List.length_replicate]
  omega

/-- Resizing a buffer to its own length is the identity. -/
theorem bufResize_self (mem : List Nat) : bufResize mem mem.length = mem := by
  simp [bufResize]

/-- A raw read always yields exactly `n` bytes, however short the
buffer is. -/
theorem readRaw_length (mem : List Nat) (pos n : Nat) :
    (readRaw mem pos n).length = n := by
  simp only [readRaw, List.length_append, List.length_take,
             List.length_replicate, List.length_drop]
  omega

/-! ## 32-bit representation lemmas -/

/-- Little-endian 32-bit words round-trip. -/
theorem fromLE32_toLE32 (n : Nat) (h : n < 4294967296) :
    fromLE32 (toLE32 n) = n := by
  simp only [toLE32, fromLE32]
  omega

/-- Two's-complement 32-bit values round-trip. -/
theorem int32_roundtrip (i : Int) (h1 : -2147483648 ≤ i)
    (h2 : i < 2147483648) : int32OfNat (int32ToNat i) = i := by
  simp only [int32ToNat, int32OfNat]
  omega

/-- The 32-bit word of an `int32` fits in 32 bits. -/
theorem int32ToNat_lt (i : Int) : int32ToNat i < 4294967296 := by
  simp only [int32ToNat]
  omega

/-! ## Traversal-engine lemmas -/

/-- Folding plain arguments with the cursor at the end of the buffer
appends the concatenated encodings and advances the cursor by their
length. -/
theorem serFold_plain (vs : List Val) (mem : List Nat) :
    serFold (vs.map Arg.plain) ⟨mem, mem.length⟩
      = ⟨mem ++ encodeList vs, mem.length + (encodeList vs).length⟩ := by
  induction vs generalizing mem with
  | nil => simp [serFold, encodeList]
  | cons v vs ih =>
      simp only [List.map_cons, serFold, serStep, serDefault, writeBytes_at_end]
      have hstep : (⟨mem ++ encode v, mem.length + (encode v).length⟩ : SerSt)
          = ⟨mem ++ encode v, (mem ++ encode v).length⟩ := by
        simp [List.length_append]
      rw [hstep, ih (mem ++ encode v)]
      simp [encodeList, List.append_assoc, List.length_append]
      omega

/-- Folding plain field arguments over a buffer whose suffix at the
cursor starts with the matching concatenated encodings decodes every
field in order, never throws, and advances the cursor by exactly the
encodings' length. -/
theorem desFold_plain (B : List Nat) (ts : List Ty) (vs : List Val)
    (h : hasTyZip vs ts = true) (pos : Nat) (outs : List Val)
    (tail : List Nat) (hpos : B.drop pos = encodeList vs ++ tail)
    (hle : pos ≤ B.length) :
    desFold B (ts.map DArg.plain) ⟨pos, outs, false⟩
      = ⟨pos + (encodeList vs).length, outs ++ vs, false⟩ := by
  induction ts generalizing vs pos outs with
  | nil =>
      cases vs with
      | nil => simp [desFold, encodeList]
      | cons v vs => simp [hasTyZip] at h
  | cons t ts ih =>
      cases vs with
      | nil => simp [hasTyZip] at h
      | cons v vs =>
          simp only [hasTyZip, Bool.and_eq_true] at h
          have hdec : decode t (B.drop pos)
              = some (v, encodeList vs ++ tail) := by
            rw [hpos, encodeList, List.append_assoc]
            exact decode_encode v t h.1 (encodeList vs ++ tail)
          have hlen : (B.drop pos).length
              = (encode v).length + ((encodeList vs ++ tail) : List Nat).length := by
            rw [hpos, encodeList]
            simp [List.length_append]
          have hBlen : B.length - pos = (B.drop pos).length := by
            simp [List.length_drop]
          simp only [List.map_cons, desFold, desStep, Bool.false_eq_true,
                     if_false, desDefault, hdec]
          have hpos2 : pos + ((B.drop pos).length
              - ((encodeList vs ++ tail) : List Nat).length)
              = pos + (encode v).length := by omega
          rw [hpos2]
          have hdrop2 : B.drop (pos + (encode v).length)
              = encodeList vs ++ tail := by
            have hdd : B.drop (pos + (encode v).length)
                = (B.drop pos).drop (encode v).length := by
              rw [List.drop_drop]
            rw [hdd, hpos, encodeList, List.append_assoc]
            exact List.drop_left (encode v) (encodeList vs ++ tail)
          have hle2 : pos + (encode v).length ≤ B.length := by
            simp only [List.length_drop] at hlen
            omega
          rw [ih vs h.2 (pos + (encode v).length) (outs ++ [v]) hdrop2 hle2]
          simp [encodeList, List.length_append, List.append_assoc]
          omega

/-- The serialize fold processes a concatenation of argument packs by
processing the first pack, then the second from the resulting state. -/
theorem serFold_append (as bs : List Arg) (s : SerSt) :
    serFold (as ++ bs) s = serFold bs (serFold as s) := by
  induction as generalizing s with
  | nil => rfl
  | cons a as ih => simp [serFold, ih]

/-- The deserialize fold processes a concatenation of argument packs
by processing the first pack, then the second from the resulting
state. -/
theorem desFold_append (mem : List Nat) (cs ds : List DArg) (d : Des) :
    desFold mem (cs ++ ds) d = desFold mem ds (desFold mem cs d) := by
  induction cs generalizing d with
  | nil => rfl
  | cons c cs ih => simp [desFold, ih]

/-! ## Claims -/

/-- C1: for every supported field type and every well-typed value,
decoding the encoding restores the value structurally (with any suffix
preserved); and a field chain encoded by `AttrContainer::serialize`
and decoded with the same type sequence restores every field's
original value in declaration order. -/
theorem C1_roundtrip (v : Val) (t : Ty) (rest : List Nat)
    (vs fs : List Val) (ts : List Ty)
    (hv : hasTy v t = true) (hz : hasTyZip vs ts = true)
    (hl : fs.length = vs.length) :
    decode t (encode v ++ rest) = some (v, rest)
    ∧ attrDeserialize ts fs (attrSerialize vs []) = (vs, false, []) := by
  refine ⟨decode_encode v t hv rest, ?_⟩
  rw [attrSerialize_eq]
  simpa using attrDeserialize_encodeList vs ts fs hz hl []

/-- C1 witness: a concrete owned-pointer value round-trips, and a
concrete two-field chain (an `int` and a `string`) encoded by the
chain is decoded back to the original fields in order. -/
theorem C1_roundtrip_witness :
    decode (.ptrTo .prim) (encode (.ptrVal (.prim 5)) ++ [9])
      = some (.ptrVal (.prim 5), [9])
    ∧ attrDeserialize [.prim, .str] [.prim 0, .prim 0]
        (attrSerialize [.prim 1, .str [2, 3]] [])
      = ([.prim 1, .str [2, 3]], false, []) :=
  C1_roundtrip (.ptrVal (.prim 5)) (.ptrTo .prim) [9]
    [.prim 1, .str [2, 3]] [.prim 0, .prim 0] [.prim, .str]
    (by simp [hasTy]) (by simp [hasTyZip, hasTy]) (by simp)

/-- C7: the chain with zero fields is the identity element for both
encode and decode: its serialize returns the input string unchanged
and its deserialize leaves the fields and the source view unchanged
and throws nothing. -/
theorem C7_empty_chain (s : List Nat) (fields : List Val) :
    attrSerialize [] s = s
    ∧ attrDeserialize [] fields s = (fields, false, s) :=
  ⟨rfl, rfl⟩

/-- C9: `deserializeStruct` performs no bounds check and has no
failure path: for every buffer, position and object size — including
when fewer than `size` bytes remain — it copies exactly `size` bytes
from position `pos` and returns `pos + size`. -/
theorem C9_no_bounds_check (mem : List Nat) (pos size : Nat) :
    deserializeStruct mem pos size = (readRaw mem pos size, pos + size)
    ∧ (readRaw mem pos size).length = size
    ∧ (deserializeStruct mem pos size).2 = pos + size :=
  ⟨rfl, readRaw_length mem pos size, rfl⟩

/-- C2 counterexample: a first-level serialize (position zero) into a
resizable buffer of the serializer's own `Bytes` kind
(`is_serializer_bytes_v` true) is not trimmed: writing one token into
a five-token buffer leaves length 5 while the final cursor is 1, so
"every first-level serialize on a resizable buffer resizes to the
final cursor" fails — the code also requires the buffer not to be a
serializer `Bytes`. -/
theorem C2_trim_counterexample :
    (serialize true true [9, 9, 9, 9, 9] 0 [Arg.plain (.prim 7)]).1.length
      ≠ (serialize true true [9, 9, 9, 9, 9] 0 [Arg.plain (.prim 7)]).2 := by
  simp [serialize, serFold, serStep, serDefault, encode, writeBytes]

/-- C2 amended: at a first-level call (position zero) on a resizable
buffer that is not the serializer's own `Bytes` type, the buffer is
resized to exactly the final cursor after the fold; a call at a
non-zero position never performs the trim (its result is exactly the
fold's); and deserialize returns the source buffer unchanged (it never
shrinks it). -/
theorem C2_trim (mem : List Nat) (args : List Arg)
    (isBytes resizable : Bool) (pos : Nat)
    (dmem : List Nat) (dpos : Nat) (dargs : List DArg) :
    (serialize false true mem 0 args).1.length
        = (serialize false true mem 0 args).2
    ∧ (pos ≠ 0 →
        serialize isBytes resizable mem pos args
          = ((serFold args ⟨mem, pos⟩).mem, (serFold args ⟨mem, pos⟩).pos))
    ∧ (deserializeTrav dmem dpos dargs).1 = dmem := by
  refine ⟨?_, ?_, rfl⟩
  · simp [serialize, bufResize_length]
  · intro hpos
    have hb : (pos == 0) = false := by simpa using hpos
    simp [serialize, hb]

/-- C2 witness: trim at a first-level call on a non-`Bytes` resizable
buffer, no trim at position 2, and an unchanged source buffer. -/
theorem C2_trim_witness :
    (serialize false true [3] 0 [Arg.plain (.prim 7)]).1.length
        = (serialize false true [3] 0 [Arg.plain (.prim 7)]).2
    ∧ serialize true true [3] 2 [Arg.plain (.prim 7)]
        = ((serFold [Arg.plain (.prim 7)] ⟨[3], 2⟩).mem,
           (serFold [Arg.plain (.prim 7)] ⟨[3], 2⟩).pos)
    ∧ (deserializeTrav [4] 0 []).1 = [4] :=
  ⟨(C2_trim [3] [Arg.plain (.prim 7)] true true 2 [4] 0 []).1,
   (C2_trim [3] [Arg.plain (.prim 7)] true true 2 [4] 0 []).2.1 (by decide),
   (C2_trim [3] [Arg.plain (.prim 7)] true true 2 [4] 0 []).2.2⟩

/-- C4 counterexample: a struct fast-path decode that attempts to read
8 bytes from an empty buffer is out of range by the claim's own
measure (`readChecked` fails), yet `deserializeStruct` raises nothing:
it performs the copy and returns the advanced position 8. -/
theorem C4_underrun_counterexample :
    readChecked [] 0 8 = none
    ∧ deserializeStruct [] 0 8 = (List.replicate 8 0, 8) := by
  constructor
  · simp [readChecked]
  · simp [deserializeStruct, readRaw]

/-- C4 amended: on the converter-driven chain decode, a read underrun
raises OutOfRange synchronously at the failing field, and the fields
already decoded earlier in the traversal keep their decoded values
(the struct fast path `deserializeStruct` performs no such check, see
the counterexample). -/
theorem C4_underrun (ts1 : List Ty) (vs1 fs1 : List Val) (tb : Ty)
    (fb : Val) (hz : hasTyZip vs1 ts1 = true)
    (hl : fs1.length = vs1.length) (hbad : decode tb [] = none) :
    attrDeserialize (ts1 ++ [tb]) (fs1 ++ [fb]) (encodeList vs1)
      = (vs1 ++ [fb], true, []) := by
  induction vs1 generalizing ts1 fs1 with
  | nil =>
      cases ts1 with
      | nil =>
          cases fs1 with
          | nil => simp [encodeList, attrDeserialize, hbad]
          | cons f fs => simp at hl
      | cons t ts => simp [hasTyZip] at hz
  | cons v vs ih =>
      cases ts1 with
      | nil => simp [hasTyZip] at hz
      | cons t ts =>
          cases fs1 with
          | nil => simp at hl
          | cons f fs =>
              simp only [hasTyZip, Bool.and_eq_true] at hz
              simp only [List.length_cons, Nat.succ_inj] at hl
              simp [encodeList, attrDeserialize,
                    decode_encode v t hz.1 (encodeList vs),
                    ih ts fs hz.2 hl]

/-- C4 witness: one good `int` field followed by a failing `int` read
at the exhausted view: the first field holds its decoded value 3, the
failing field keeps its old value 9, and the failure is signalled. -/
theorem C4_underrun_witness :
    attrDeserialize ([Ty.prim] ++ [Ty.prim]) ([Val.prim 0] ++ [Val.prim 9])
        (encodeList [Val.prim 3])
      = ([Val.prim 3] ++ [Val.prim 9], true, []) :=
  C4_underrun [Ty.prim] [Val.prim 3] [Val.prim 0] Ty.prim (Val.prim 9)
    (by simp [hasTyZip, hasTy]) (by simp) (by simp [decode])

/-- C5: for the flat aggregate `{x: int32, y: int32}`,
`serializeStruct` writes exactly `sizeof` (8) bytes equal to the
object's in-memory representation and returns the position advanced by
8; `deserializeStruct` applied at the written position reconstructs an
equal object and likewise returns the advanced position. -/
theorem C5_struct_fast_path (o : Flat) (mem : List Nat) (pos : Nat)
    (h1 : -2147483648 ≤ o.x) (h2 : o.x < 2147483648)
    (h3 : -2147483648 ≤ o.y) (h4 : o.y < 2147483648) :
    (reprFlat o).length = 8
    ∧ serializeStructFlat mem mem.length o
        = (mem ++ reprFlat o, mem.length + 8)
    ∧ deserializeStructFlat (serializeStructFlat mem pos o).1 pos
        = (o, pos + 8) := by
  obtain ⟨x, y⟩ := o
  have h8 : (reprFlat ⟨x, y⟩).length = 8 := by simp [reprFlat, toLE32]
  refine ⟨h8, by rw [serializeStructFlat, writeBytes_at_end], ?_⟩
  have hx := int32ToNat_lt x
  have hy := int32ToNat_lt y
  have hr : readRaw (writeBytes mem pos (reprFlat ⟨x, y⟩)) pos 8
      = reprFlat ⟨x, y⟩ := by
    conv_lhs => rw [show (8 : Nat) = (reprFlat ⟨x, y⟩).length from h8.symm]
    exact readRaw_writeBytes mem pos (reprFlat ⟨x, y⟩)
  have hfx : fromLE32 (reprFlat ⟨x, y⟩) = int32ToNat x := by
    simp only [reprFlat, toLE32, List.cons_append, List.nil_append, fromLE32]
    omega
  have hd4 : (reprFlat ⟨x, y⟩).drop 4 = toLE32 (int32ToNat y) := by
    simp [reprFlat, toLE32]
  simp only [serializeStructFlat, deserializeStructFlat, deserializeStruct,
             hr, hfx, hd4, fromLE32_toLE32 (int32ToNat y) hy,
             int32_roundtrip x h1 h2, int32_roundtrip y h3 h4]

/-- C5 witness: the spec's example `{x = 7, y = -3}` written at
position 0 of an empty buffer occupies exactly its 8 representation
bytes and decodes back to `x = 7, y = -3` at position 8. -/
theorem C5_struct_fast_path_witness :
    (reprFlat ⟨7, -3⟩).length = 8
    ∧ serializeStructFlat [] ([] : List Nat).length ⟨7, -3⟩
        = ([] ++ reprFlat ⟨7, -3⟩, ([] : List Nat).length + 8)
    ∧ deserializeStructFlat (serializeStructFlat [] 0 ⟨7, -3⟩).1 0
        = (⟨7, -3⟩, 0 + 8) :=
  C5_struct_fast_path ⟨7, -3⟩ [] 0 (by decide) (by decide) (by decide)
    (by decide)

/-- C8: both traversal engines fold the argument pack left to right
(a pack split anywhere is processed first pack first, from its
resulting state), and per argument a phase-aware callable is invoked
with a context carrying the phase tag (`Serialization` in serialize,
`Deserialization` in deserialize) and the bound strategy, while any
other argument is dispatched to the strategy's default per-argument
operation. -/
theorem C8_dispatch (s : SerSt) (f : Context SerSt → SerSt) (v : Val)
    (mem : List Nat) (d : Des) (g : Context Des → Des) (t : Ty)
    (as bs : List Arg) (cs ds : List DArg) (s0 : SerSt) (d0 : Des) :
    serStep s (.callable f) = f ⟨Phases.Serialization, s⟩
    ∧ serStep s (.plain v) = serDefault s v
    ∧ (d.thrown = false →
        desStep mem d (.callable g) = g ⟨Phases.Deserialization, d⟩)
    ∧ (d.thrown = false → desStep mem d (.plain t) = desDefault mem d t)
    ∧ serFold (as ++ bs) s0 = serFold bs (serFold as s0)
    ∧ desFold mem (cs ++ ds) d0 = desFold mem ds (desFold mem cs d0) := by
  refine ⟨rfl, rfl, ?_, ?_, serFold_append as bs s0,
          desFold_append mem cs ds d0⟩
  · intro hth
    simp [desStep, hth]
  · intro hth
    simp [desStep, hth]

/-- C8 witness: dispatch and fold order at concrete arguments: an
identity callable, a plain `int`, and one-element packs. -/
theorem C8_dispatch_witness :
    serStep ⟨[], 0⟩ (.callable (fun c => c.serializer))
        = (fun (c : Context SerSt) => c.serializer)
            ⟨Phases.Serialization, ⟨[], 0⟩⟩
    ∧ serStep ⟨[], 0⟩ (.plain (.prim 4)) = serDefault ⟨[], 0⟩ (.prim 4)
    ∧ desStep [8] ⟨0, [], false⟩ (.callable (fun c => c.serializer))
        = (fun (c : Context Des) => c.serializer)
            ⟨Phases.Deserialization, ⟨0, [], false⟩⟩
    ∧ desStep [8] ⟨0, [], false⟩ (.plain .prim)
        = desDefault [8] ⟨0, [], false⟩ .prim
    ∧ serFold ([.plain (.prim 4)] ++ [.plain (.prim 6)]) ⟨[], 0⟩
        = serFold [.plain (.prim 6)] (serFold [.plain (.prim 4)] ⟨[], 0⟩)
    ∧ desFold [8] ([.plain .prim] ++ []) ⟨0, [], false⟩
        = desFold [8] [] (desFold [8] [.plain .prim] ⟨0, [], false⟩) :=
  have hth := C8_dispatch ⟨[], 0⟩ (fun c => c.serializer) (.prim 4) [8]
    ⟨0, [], false⟩ (fun c => c.serializer) .prim
    [.plain (.prim 4)] [.plain (.prim 6)] [.plain .prim] []
    ⟨[], 0⟩ ⟨0, [], false⟩
  ⟨hth.1, hth.2.1, hth.2.2.1 rfl, hth.2.2.2.1 rfl,
   hth.2.2.2.2.1, hth.2.2.2.2.2⟩

/-- C3: decoding into a pointer field that holds a live owned value
frees that value before the converter is invoked and never leaks or
double-frees it: decoding an encoded null leaves the field null with
the old allocation gone, and decoding an encoded value frees the old
pointee, allocates a distinct new one and populates it with the
decoded value.  (The run returning `some` certifies that every
`delete` hit a live allocation — no double free.) -/
theorem C3_ptr_ownership (a : Nat) (h : Heap) (t : Ty) (v : Val)
    (rest : List Nat) (hwf : Heap.wf h) (hnd : h.live.Nodup)
    (ha : a ∈ h.live) (hv : hasTy v t = true) :
    (∃ h2, nodeDeserializePtr (some a) h t (0 :: rest)
        = some ⟨none, h2, rest, false⟩ ∧ a ∉ h2.live)
    ∧ (∃ h2 b, nodeDeserializePtr (some a) h t (1 :: (encode v ++ rest))
        = some ⟨some b, h2, rest, false⟩ ∧ h2.store b = v
        ∧ a ∉ h2.live ∧ b ∈ h2.live ∧ b ≠ a) := by
  have hdel : heapDelete h a = some { h with live := h.live.erase a } := by
    simp [heapDelete, ha]
  have hane : a ∉ h.live.erase a := List.Nodup.not_mem_erase hnd
  have halt : a < h.nxt := hwf a ha
  constructor
  · exact ⟨{ h with live := h.live.erase a },
      by simp [nodeDeserializePtr, hdel, convPtrDeserialize], hane⟩
  · refine ⟨⟨h.nxt + 1, h.nxt :: h.live.erase a,
        fun b => if b = h.nxt then v else h.store b⟩, h.nxt,
        ?_, ?_, ?_, ?_, ?_⟩
    · simp [nodeDeserializePtr, hdel, convPtrDeserialize,
            decode_encode v t hv rest, heapAlloc]
    · simp
    · simp only [List.mem_cons, not_or]
      exact ⟨by omega, hane⟩
    · simp
    · omega

/-- C3 witness: a single-cell heap whose one live allocation at
address 0 is the pointer field's old value; decoding an encoded null
and decoding an encoded `int 7` both free it, and the latter stores 7
in a fresh distinct cell. -/
theorem C3_ptr_ownership_witness :
    (∃ h2, nodeDeserializePtr (some 0)
        ⟨1, [0], fun _ => Val.prim 0⟩ Ty.prim (0 :: [6])
        = some ⟨none, h2, [6], false⟩ ∧ 0 ∉ h2.live)
    ∧ (∃ h2 b, nodeDeserializePtr (some 0)
        ⟨1, [0], fun _ => Val.prim 0⟩ Ty.prim
        (1 :: (encode (Val.prim 7) ++ [6]))
        = some ⟨some b, h2, [6], false⟩ ∧ h2.store b = Val.prim 7
        ∧ 0 ∉ h2.live ∧ b ∈ h2.live ∧ b ≠ 0) :=
  C3_ptr_ownership 0 ⟨1, [0], fun _ => Val.prim 0⟩ Ty.prim (Val.prim 7) [6]
    (by simp [Heap.wf]) (by simp) (by simp) (by simp [hasTy])

/-- C10: during decode of a pointer-typed field the field is nulled
immediately after its old value is deleted and before the converter is
invoked (first conjunct: the node factors through the delete into a
converter call on a null field); consequently the field is never left
dangling: the node's decode succeeds, a converter failure leaves the
field null, and on success the field is null or holds a live
allocation. -/
theorem C10_no_dangling (a : Nat) (h : Heap) (t : Ty) (s : List Nat)
    (ha : a ∈ h.live) :
    nodeDeserializePtr (some a) h t s
      = (heapDelete h a).bind (fun h2 => convPtrDeserialize none h2 t s)
    ∧ ∃ st, nodeDeserializePtr (some a) h t s = some st
        ∧ (st.thrown = true → st.reference = none)
        ∧ (st.reference = none
            ∨ ∃ b, st.reference = some b ∧ b ∈ st.heap.live) := by
  have hdel : heapDelete h a = some { h with live := h.live.erase a } := by
    simp [heapDelete, ha]
  refine ⟨rfl, ?_⟩
  rw [nodeDeserializePtr, hdel, Option.some_bind]
  match s with
  | [] => exact ⟨_, rfl, fun _ => rfl, Or.inl rfl⟩
  | 0 :: rest => exact ⟨_, rfl, fun _ => rfl, Or.inl rfl⟩
  | (k + 1) :: rest =>
      cases hdec : decode t rest with
      | none =>
          refine ⟨⟨none, { h with live := h.live.erase a }, rest, true⟩,
                  ?_, fun _ => rfl, Or.inl rfl⟩
          simp [convPtrDeserialize, hdec]
      | some p =>
          refine ⟨⟨some (heapAlloc { h with live := h.live.erase a } p.1).2,
                  (heapAlloc { h with live := h.live.erase a } p.1).1,
                  p.2, false⟩, ?_, by simp, Or.inr ?_⟩
          · simp [convPtrDeserialize, hdec]
          · exact ⟨_, rfl, by simp [heapAlloc]⟩

/-- C10 witness: a live old value at address 0 and a converter failure
(empty view: the presence-flag read underruns): the node's decode
reports the failure with the field left null, not dangling. -/
theorem C10_no_dangling_witness :
    (nodeDeserializePtr (some 0) ⟨1, [0], fun _ => Val.prim 0⟩ Ty.prim []
      = (heapDelete ⟨1, [0], fun _ => Val.prim 0⟩ 0).bind
          (fun h2 => convPtrDeserialize none h2 Ty.prim []))
    ∧ ∃ st, nodeDeserializePtr (some 0)
          ⟨1, [0], fun _ => Val.prim 0⟩ Ty.prim [] = some st
        ∧ (st.thrown = true → st.reference = none)
        ∧ (st.reference = none
            ∨ ∃ b, st.reference = some b ∧ b ∈ st.heap.live) :=
  C10_no_dangling 0 ⟨1, [0], fun _ => Val.prim 0⟩ Ty.prim [] (by simp)

/-- C6: serialize and deserialize return the final cursor position;
serializing a first record at position 0 and a second at the returned
position `p1` lays the records back to back with no overlap
(`[0, p1)` and `[p1, p1 + len2)`), and each decodes independently from
its own starting position, returning its own final cursor. -/
theorem C6_two_records (vs1 vs2 : List Val) (ts1 ts2 : List Ty)
    (h1 : hasTyZip vs1 ts1 = true) (h2 : hasTyZip vs2 ts2 = true) :
    serialize false true [] 0 (vs1.map Arg.plain)
      = (encodeList vs1, (encodeList vs1).length)
    ∧ serialize false true (encodeList vs1) (encodeList vs1).length
        (vs2.map Arg.plain)
      = (encodeList vs1 ++ encodeList vs2,
         (encodeList vs1).length + (encodeList vs2).length)
    ∧ deserializeTrav (encodeList vs1 ++ encodeList vs2) 0
        (ts1.map DArg.plain)
      = (encodeList vs1 ++ encodeList vs2,
         ⟨(encodeList vs1).length, vs1, false⟩)
    ∧ deserializeTrav (encodeList vs1 ++ encodeList vs2)
        (encodeList vs1).length (ts2.map DArg.plain)
      = (encodeList vs1 ++ encodeList vs2,
         ⟨(encodeList vs1).length + (encodeList vs2).length, vs2,
          false⟩) := by
  refine ⟨?_, ?_, ?_, ?_⟩
  · have hf := serFold_plain vs1 []
    simp only [List.length_nil, List.nil_append, Nat.zero_add] at hf
    simp [serialize, hf, bufResize_self]
  · have hf := serFold_plain vs2 (encodeList vs1)
    by_cases he : (encodeList vs1).length = 0
    · rw [List.length_eq_zero] at he
      rw [he] at hf ⊢
      simp only [List.length_nil, List.nil_append, Nat.zero_add] at hf
      simp [serialize, hf, bufResize_self]
    · have hb : ((encodeList vs1).length == 0) = false := by simpa using he
      simp [serialize, hf, hb]
  · have hd := desFold_plain (encodeList vs1 ++ encodeList vs2) ts1 vs1 h1
      0 [] (encodeList vs2) (by simp) (by simp)
    simp only [Nat.zero_add, List.nil_append] at hd
    simp [deserializeTrav, hd]
  · have hd := desFold_plain (encodeList vs1 ++ encodeList vs2) ts2 vs2 h2
      (encodeList vs1).length [] [] (by simp [List.drop_left])
      (by simp only [List.length_append]; omega)
    simp only [List.append_nil, List.nil_append] at hd
    simp [deserializeTrav, hd]

/-- C6 witness: two concrete records — an `int 1` record and a
one-character-string record — serialized back to back at positions 0
and `p1 = 1` and decoded independently from 0 and from `p1`. -/
theorem C6_two_records_witness :
    serialize false true [] 0 ([Val.prim 1].map Arg.plain)
      = (encodeList [Val.prim 1], (encodeList [Val.prim 1]).length)
    ∧ serialize false true (encodeList [Val.prim 1])
        (encodeList [Val.prim 1]).length ([Val.str [5]].map Arg.plain)
      = (encodeList [Val.prim 1] ++ encodeList [Val.str [5]],
         (encodeList [Val.prim 1]).length
           + (encodeList [Val.str [5]]).length)
    ∧ deserializeTrav (encodeList [Val.prim 1] ++ encodeList [Val.str [5]])
        0 ([Ty.prim].map DArg.plain)
      = (encodeList [Val.prim 1] ++ encodeList [Val.str [5]],
         ⟨(encodeList [Val.prim 1]).length, [Val.prim 1], false⟩)
    ∧ deserializeTrav (encodeList [Val.prim 1] ++ encodeList [Val.str [5]])
        (encodeList [Val.prim 1]).length ([Ty.str].map DArg.plain)
      = (encodeList [Val.prim 1] ++ encodeList [Val.str [5]],
         ⟨(encodeList [Val.prim 1]).length
            + (encodeList [Val.str [5]]).length, [Val.str [5]], false⟩) :=
  C6_two_records [Val.prim 1] [Val.str [5]] [Ty.prim] [Ty.str]
    (by simp [hasTyZip, hasTy]) (by simp [hasTyZip, hasTy])

end Stringifier
